import Mathlib

/-!
Verification of the Four Corner (Sijiao) lookup core from
src/sijiao_lookup/src/App.jsx: a prefix trie over character records
(Trie.insert / Trie.search / Trie.collectAll), the CSV ingestion pipeline
(processCSV: column detection and row validation), and the consumer-side
search effect (empty-input guard, exact-match-first ordering, truncation to
100 results).

Modelling notes:
* JavaScript strings are modelled as Lean `String`.  `String.prototype.split`
  with a one-character separator is modelled by `jsSplit`,
  `String.prototype.trim` by `jsTrim` (JS trims a slightly larger set of
  Unicode whitespace; all whitespace relevant here is ASCII), and the regexes
  `^\d{4,5}$` / `^\d+$` by `isCode45` / `isAllDigits` (`\d` is ASCII `[0-9]`,
  matched by `Char.isDigit`).
* The trie node's `children` object is modelled as an association list
  `List (Char × TrieNode)`; `findChild` / `updateChild` / `addChild` model
  property lookup, in-place replacement of an existing child's subtree, and
  creation of a new property.  JavaScript enumerates single-digit property
  keys (array-index keys) first, in ascending order, and the remaining keys
  in creation order; `addChild` places a fresh key accordingly, so
  `collectAll`'s traversal visits children in the same order as the
  `for (const key in node.children)` loop.
* `localeCompare` is modelled as code-point lexicographic comparison
  (`codeCmp`); the two agree on ASCII digit strings, which are the only codes
  the ingestion pipeline stores.
* `Array.prototype.sort` is guaranteed stable and is modelled by the stable
  `List.mergeSort`.
* `processCSV`'s only `throw` is the column-detection failure; the
  `try`/`catch` is modelled by `IngestResult.failed`, and the React state
  updates of the success / failure branches by `processCSVUpdate`.
-/

namespace Unihan

/-- A character record as stored in the trie: the data object
`{ char, def, cantonese, pinyin }` built by `processCSV`, plus the `code`
field stamped on by `Trie.insert` (`{ ...data, code }`).  `cantonese` is
`columns[1]`, which may be absent (`undefined`), hence `Option`. -/
structure CharRec where
  char : String
  defn : String
  cantonese : Option String
  pinyin : String
  code : String
deriving DecidableEq

/-- A trie node: `this.children = {}` (association list of single-character
keys) and `this.characters = []`. -/
inductive TrieNode : Type where
  | mk (children : List (Char × TrieNode)) (characters : List CharRec)

/-- `new TrieNode()`. -/
def TrieNode.empty : TrieNode := .mk [] []

/-- Property lookup `node.children[char]`. -/
def findChild : List (Char × TrieNode) → Char → Option TrieNode
  | [], _ => none
  | e :: es, c => if e.1 = c then some e.2 else findChild es c

/-- `childOrderLt a b` holds when the property key `a` is enumerated strictly
before the key `b` by JavaScript's `for ... in`: array-index keys (here:
single digit characters) come first, in ascending order, then all other keys
in creation order. -/
def childOrderLt (a b : Char) : Bool :=
  a.isDigit && (!b.isDigit || decide (a.toNat < b.toNat))

/-- Creation of a new property `node.children[char] = new TrieNode()`:
the new key is placed at the position where `for ... in` will enumerate it. -/
def addChild : List (Char × TrieNode) → Char → TrieNode → List (Char × TrieNode)
  | [], c, t => [(c, t)]
  | e :: es, c, t =>
    if childOrderLt c e.1 then (c, t) :: e :: es else e :: addChild es c t

/-- In-place mutation of the subtree under an existing key (keys are unique
in any reachable trie, and lookup stops at the first hit). -/
def updateChild : List (Char × TrieNode) → Char → TrieNode → List (Char × TrieNode)
  | [], _, _ => []
  | e :: es, c, t => if e.1 = c then (c, t) :: es else e :: updateChild es c t

/-- The walk of `Trie.insert` over the characters of `code`: create missing
children, then push the record onto the terminal node's `characters`. -/
def TrieNode.insertPath : TrieNode → List Char → CharRec → TrieNode
  | .mk cs recs, [], r => .mk cs (recs ++ [r])
  | .mk cs recs, c :: rest, r =>
    match findChild cs c with
    | some child => .mk (updateChild cs c (child.insertPath rest r)) recs
    | none => .mk (addChild cs c (TrieNode.empty.insertPath rest r)) recs

/-- `Trie.insert(code, data)`: a no-op on a falsy (empty) code, otherwise the
record stored is `{ ...data, code }` — the insertion code is stamped onto the
stored record. -/
def TrieNode.insert (t : TrieNode) (code : String) (data : CharRec) : TrieNode :=
  if code = "" then t
  else t.insertPath code.data { data with code := code }

/-- The walk of `Trie.search` down the characters of the prefix. -/
def searchNode : TrieNode → List Char → Option TrieNode
  | n, [] => some n
  | .mk cs _, c :: rest =>
    match findChild cs c with
    | none => none
    | some child => searchNode child rest

mutual

/-- `Trie.collectAll(node)`: the node's own records followed by the records
of every child subtree, children in enumeration order. -/
def TrieNode.collectAll : TrieNode → List CharRec
  | .mk cs recs => recs ++ TrieNode.collectChildren cs

/-- The `for (const key in node.children)` concatenation loop inside
`collectAll`. -/
def TrieNode.collectChildren : List (Char × TrieNode) → List CharRec
  | [] => []
  | e :: es => e.2.collectAll ++ TrieNode.collectChildren es

end

/-- `Trie.search(prefix)`: walk the prefix; a missing child returns `[]`,
otherwise collect the whole subtree. -/
def TrieNode.search (t : TrieNode) (pre : String) : List CharRec :=
  match searchNode t pre.data with
  | none => []
  | some n => n.collectAll

mutual

/-- The total number of records stored in a trie: the sum of the lengths of
the record lists over all nodes. -/
def totalRecs : TrieNode → Nat
  | .mk cs recs => recs.length + totalRecsChildren cs

/-- Sum of `totalRecs` over a children list. -/
def totalRecsChildren : List (Char × TrieNode) → Nat
  | [] => 0
  | e :: es => totalRecs e.2 + totalRecsChildren es

end

/-- A trie built only through `insert` calls, starting from the fresh empty
trie. -/
def buildTrie (ops : List (String × CharRec)) : TrieNode :=
  ops.foldl (fun t op => t.insert op.1 op.2) TrieNode.empty

mutual

/-- Structural invariant of reachable tries: every record stored at the node
whose path from the root spells `q` has exactly `q` as its code, and each
child labelled `c` satisfies the invariant at path `q ++ [c]`. -/
def nodeInv : List Char → TrieNode → Prop
  | q, .mk cs recs => (∀ r ∈ recs, r.code.data = q) ∧ childrenInv q cs

/-- The invariant over a children list. -/
def childrenInv : List Char → List (Char × TrieNode) → Prop
  | _, [] => True
  | q, e :: es => nodeInv (q ++ [e.1]) e.2 ∧ childrenInv q es

end

/-! ### The ingestion pipeline -/

/-- JavaScript `String.prototype.split` with a one-character separator, on
the underlying character list (`"".split(sep)` is `[""]`). -/
def splitSep (sep : Char) : List Char → List (List Char)
  | [] => [[]]
  | c :: cs =>
    let r := splitSep sep cs
    if c = sep then [] :: r
    else
      match r with
      | h :: t => (c :: h) :: t
      | [] => [[c]]

/-- `text.split(sep)` for a one-character separator. -/
def jsSplit (sep : Char) (s : String) : List String :=
  (splitSep sep s.data).map String.mk

/-- `line.trim()`: strip leading and trailing whitespace. -/
def jsTrim (s : String) : String :=
  String.mk (((s.data.dropWhile Char.isWhitespace).reverse.dropWhile
    Char.isWhitespace).reverse)

/-- The anchored column-detection regex `/^\d{4,5}$/`: exactly 4 or 5 ASCII
digits and nothing else. -/
def isCode45 (s : String) : Bool :=
  (s.data.length == 4 || s.data.length == 5) && s.data.all fun c => c.isDigit

/-- The row-acceptance regex `/^\d+$/` restricted to non-empty strings (the
surrounding code already requires `code` truthy, i.e. non-empty): every
character is an ASCII digit. -/
def isAllDigits (s : String) : Bool :=
  s.data.all fun c => c.isDigit

/-- The inner `for (let j = 0; j < cols.length; j++)` loop of column
detection: index of the first column matching `^\d{4,5}$`, starting the count
at `j`. -/
def findCodeCol : List String → Nat → Option Nat
  | [], _ => none
  | c :: cs, j => if isCode45 c then some j else findCodeCol cs (j + 1)

/-- One iteration of the detection sample loop: split the line on the `'|'`
delimiter, skip it when it has fewer than 5 columns, otherwise look for the
first column matching `^\d{4,5}$`. -/
def detectLine (line : String) : Option Nat :=
  let cols := jsSplit '|' line
  if cols.length < 5 then none else findCodeCol cols 0

/-- The outer detection loop over at most `k` remaining sample lines: the
first line yielding a column index wins. -/
def detectIn : List String → Nat → Option Nat
  | _, 0 => none
  | [], _ + 1 => none
  | l :: ls, k + 1 =>
    match detectLine l with
    | some j => some j
    | none => detectIn ls k

/-- Column detection over `for (let i = 0; i < Math.min(lines.length, 50); i++)`. -/
def detectCodeIndex (lines : List String) : Option Nat :=
  detectIn lines 50

/-- The Record Validator: one iteration of the row loop of `processCSV`.
Trims the line and skips it when blank; otherwise splits on `'|'`, extracts
`char = columns[0]`, `cantonese = columns[1]`, `definition = columns[2] || ""`,
`pinyin = columns[9]`, `code = columns[codeIndex]`, and accepts exactly when
`char && code && /^\d+$/.test(code) && definition && pinyin`. -/
def rowRecord (codeIndex : Nat) (rawLine : String) : Option CharRec :=
  let line := jsTrim rawLine
  if line = "" then none
  else
    let columns := jsSplit '|' line
    let ch := (columns[0]?).getD ""
    let cant := columns[1]?
    let defn := (columns[2]?).getD ""
    match columns[codeIndex]?, columns[9]? with
    | some code, some py =>
      if ch ≠ "" ∧ code ≠ "" ∧ isAllDigits code = true ∧ defn ≠ "" ∧ py ≠ "" then
        some { char := ch, defn := defn, cantonese := cant, pinyin := py, code := code }
      else none
    | _, _ => none

/-- One iteration of the ingestion loop: an accepted row performs exactly one
`insert` and increments the accepted count; any other line leaves the state
unchanged. -/
def ingestStep (codeIndex : Nat) (acc : TrieNode × Nat) (line : String) :
    TrieNode × Nat :=
  match rowRecord codeIndex line with
  | none => acc
  | some r => (acc.1.insert r.code r, acc.2 + 1)

/-- Outcome of one ingestion run: either a freshly built index with its
accepted count, or the error message of the `catch` branch. -/
inductive IngestResult : Type where
  | ready (trie : TrieNode) (count : Nat)
  | failed (msg : String)

/-- The message of the error thrown on detection failure. -/
def detectErrorMsg : String :=
  "Could not automatically detect the Four Corner Code column in the CSV."

/-- `processCSV(text)`: split into lines, detect the code column (aborting
with an error when detection fails), then run the validator over every line,
inserting accepted records into a fresh trie. -/
def processCSV (text : String) : IngestResult :=
  let lines := jsSplit '\n' text
  match detectCodeIndex lines with
  | none => .failed detectErrorMsg
  | some codeIndex =>
    let st := lines.foldl (ingestStep codeIndex) (TrieNode.empty, 0)
    .ready st.1 st.2

/-- The React state touched by `processCSV`: `trie`, `datasetSize`,
`loading`, `error`, `showUploader`. -/
structure AppState where
  trie : Option TrieNode
  datasetSize : Nat
  loading : Bool
  error : Option String
  showUploader : Bool

/-- The state updates performed by the success and failure branches of
`processCSV`: on success publish the new index, its count, clear the error
and hide the uploader; on failure set only the error message, the loading
flag and the uploader flag. -/
def processCSVUpdate (s : AppState) (text : String) : AppState :=
  match processCSV text with
  | .ready t n =>
    { s with trie := some t, datasetSize := n, loading := false,
             error := none, showUploader := false }
  | .failed msg =>
    { s with error := some msg, loading := false, showUploader := true }

/-! ### The consumer-side search effect -/

/-- Code-point lexicographic three-way comparison of strings, the behaviour
of `localeCompare` on the ASCII digit strings used as codes. -/
def codeCmp : List Char → List Char → Ordering
  | [], [] => .eq
  | [], _ :: _ => .lt
  | _ :: _, [] => .gt
  | a :: as, b :: bs =>
    if a.toNat < b.toNat then .lt
    else if b.toNat < a.toNat then .gt
    else codeCmp as bs

/-- The sort comparator of the search effect:
exact match (`code === inputCode`) first, then `localeCompare` of codes. -/
def searchCompare (q : String) (a b : CharRec) : Ordering :=
  if a.code = q ∧ b.code ≠ q then .lt
  else if b.code = q ∧ a.code ≠ q then .gt
  else codeCmp a.code.data b.code.data

/-- The "not greater" relation induced by the comparator, used by the stable
sort. -/
def sortLe (q : String) (a b : CharRec) : Bool :=
  decide (searchCompare q a b ≠ Ordering.gt)

/-- The ordered match list `matches.sort(...)` of the search effect. -/
def orderedMatches (t : TrieNode) (q : String) : List CharRec :=
  (t.search q).mergeSort (sortLe q)

/-- The search effect: empty input publishes no results and performs no
query; otherwise the trie is queried, the matches sorted, and the first 100
published. -/
def appSearchResults (t : TrieNode) (input : String) : List CharRec :=
  if input.length = 0 then []
  else (orderedMatches t input).take 100

/-! ### Spec-side characterisations

The following definitions follow the specification's words (spec.md §4.2 and
§4.3) and are proved equivalent to the code-derived functions above. -/

/-- Spec-side reading of the detection test: "4 or 5 consecutive ASCII
digits, and nothing else" (anchored full-match). -/
def isCode45Spec (s : String) : Prop :=
  (s.data.length = 4 ∨ s.data.length = 5) ∧ ∀ ch ∈ s.data, ch.isDigit = true

/-- Spec-side reading of one detection-sample line: split on the delimiter;
a line with fewer than 5 columns never yields a column; otherwise the
returned index is that of the first column matching the detection test. -/
def detectLineSpec (line : String) (j : Nat) : Prop :=
  5 ≤ (jsSplit '|' line).length ∧
  ∃ pre c post, jsSplit '|' line = pre ++ c :: post ∧ j = pre.length ∧
    (∀ c' ∈ pre, ¬ isCode45Spec c') ∧ isCode45Spec c

/-- Spec-side reading of detection over the sample: only the first
min(50, total) lines are examined, and the first line yielding a matching
column wins. -/
def detectSpec (lines : List String) (j : Nat) : Prop :=
  ∃ pre l post, lines.take 50 = pre ++ l :: post ∧
    (∀ l' ∈ pre, ∀ j', ¬ detectLineSpec l' j') ∧ detectLineSpec l j

/-- Spec-side acceptance condition for one (trimmed, non-blank) row, spec.md
§4.3: character present, code present and all-digits (any number of digits),
definition present, pinyin present; cantonese is not consulted. -/
def rowAcceptSpec (codeIndex : Nat) (rawLine : String) : Prop :=
  let columns := jsSplit '|' (jsTrim rawLine)
  ((columns[0]?).getD "" ≠ "")
  ∧ (∃ cd, columns[codeIndex]? = some cd ∧ cd ≠ "" ∧ ∀ ch ∈ cd.data, ch.isDigit = true)
  ∧ ((columns[2]?).getD "" ≠ "")
  ∧ (∃ py, columns[9]? = some py ∧ py ≠ "")

/-! ### Basic trie lemmas -/

theorem collectAll_mk (cs : List (Char × TrieNode)) (recs : List CharRec) :
    TrieNode.collectAll (.mk cs recs) = recs ++ TrieNode.collectChildren cs := by
  rw [TrieNode.collectAll]

theorem collectAll_empty : TrieNode.empty.collectAll = [] := by
  rw [TrieNode.empty, collectAll_mk, TrieNode.collectChildren]
  rfl

theorem mem_collectChildren (r : CharRec) :
    ∀ cs : List (Char × TrieNode),
      r ∈ TrieNode.collectChildren cs ↔ ∃ e ∈ cs, r ∈ e.2.collectAll
  | [] => by rw [TrieNode.collectChildren]; simp
  | e :: es => by
    rw [TrieNode.collectChildren]
    simp [mem_collectChildren r es, or_and_right, exists_or]

theorem totalRecs_mk (cs : List (Char × TrieNode)) (recs : List CharRec) :
    totalRecs (.mk cs recs) = recs.length + totalRecsChildren cs := by
  rw [totalRecs]

theorem totalRecs_empty : totalRecs TrieNode.empty = 0 := by
  rw [TrieNode.empty, totalRecs_mk, totalRecsChildren]
  rfl

theorem TrieNode.inductionOn {motive : TrieNode → Prop}
    (h : ∀ cs recs, (∀ e ∈ cs, motive e.2) → motive (.mk cs recs)) :
    ∀ n, motive n
  | .mk cs recs => h cs recs (fun e he => TrieNode.inductionOn h e.2)
termination_by n => sizeOf n
decreasing_by
  have := List.sizeOf_lt_of_mem he
  cases e
  simp at *
  omega

theorem findChild_updateChild {c : Char} {child : TrieNode} :
    ∀ {cs : List (Char × TrieNode)}, findChild cs c = some child →
      ∀ t : TrieNode, findChild (updateChild cs c t) c = some t := by
  intro cs
  induction cs with
  | nil => intro h; rw [findChild] at h; exact absurd h (by simp)
  | cons e es ih =>
    intro h t
    rw [findChild] at h
    by_cases hc : e.1 = c
    · simp [updateChild, hc, findChild]
    · rw [if_neg hc] at h
      simp only [updateChild, if_neg hc, findChild]
      exact ih h t

theorem findChild_addChild {c : Char} :
    ∀ {cs : List (Char × TrieNode)}, findChild cs c = none →
      ∀ t : TrieNode, findChild (addChild cs c t) c = some t := by
  intro cs
  induction cs with
  | nil => intro _ t; simp [addChild, findChild]
  | cons e es ih =>
    intro h t
    rw [findChild] at h
    by_cases hc : e.1 = c
    · rw [if_pos hc] at h; exact absurd h (by simp)
    · rw [if_neg hc] at h
      rw [addChild]
      by_cases ho : childOrderLt c e.1
      · simp [ho, findChild]
      · simp only [ho]
        rw [if_neg (by simp)]
        rw [findChild, if_neg hc]
        exact ih h t

theorem findChild_mem {c : Char} {child : TrieNode} :
    ∀ {cs : List (Char × TrieNode)}, findChild cs c = some child → (c, child) ∈ cs := by
  intro cs
  induction cs with
  | nil => intro h; rw [findChild] at h; exact absurd h (by simp)
  | cons e es ih =>
    intro h
    rw [findChild] at h
    by_cases hc : e.1 = c
    · rw [if_pos hc] at h
      obtain ⟨c1, t1⟩ := e
      obtain rfl : c1 = c := hc
      obtain rfl : t1 = child := by simpa using h
      exact List.mem_cons_self _ _
    · rw [if_neg hc] at h
      exact List.mem_cons_of_mem _ (ih h)

theorem mem_updateChild {c : Char} {t : TrieNode} {e' : Char × TrieNode} :
    ∀ {cs : List (Char × TrieNode)}, e' ∈ updateChild cs c t → e' ∈ cs ∨ e' = (c, t) := by
  intro cs
  induction cs with
  | nil => intro h; rw [updateChild] at h; simp at h
  | cons e es ih =>
    intro h
    rw [updateChild] at h
    by_cases hc : e.1 = c
    · rw [if_pos hc] at h
      rcases List.mem_cons.mp h with h1 | h1
      · exact Or.inr h1
      · exact Or.inl (List.mem_cons_of_mem _ h1)
    · rw [if_neg hc] at h
      rcases List.mem_cons.mp h with h1 | h1
      · exact Or.inl (h1 ▸ List.mem_cons_self _ _)
      · rcases ih h1 with h2 | h2
        · exact Or.inl (List.mem_cons_of_mem _ h2)
        · exact Or.inr h2

theorem mem_addChild {c : Char} {t : TrieNode} {e' : Char × TrieNode} :
    ∀ {cs : List (Char × TrieNode)}, e' ∈ addChild cs c t → e' ∈ cs ∨ e' = (c, t) := by
  intro cs
  induction cs with
  | nil =>
    intro h
    rw [addChild] at h
    exact Or.inr (List.mem_singleton.mp h)
  | cons e es ih =>
    intro h
    rw [addChild] at h
    by_cases ho : childOrderLt c e.1
    · rw [if_pos ho] at h
      rcases List.mem_cons.mp h with h1 | h1
      · exact Or.inr h1
      · exact Or.inl h1
    · rw [if_neg (by simp [ho])] at h
      rcases List.mem_cons.mp h with h1 | h1
      · exact Or.inl (h1 ▸ List.mem_cons_self _ _)
      · rcases ih h1 with h2 | h2
        · exact Or.inl (List.mem_cons_of_mem _ h2)
        · exact Or.inr h2

/-! ### Inserting and searching -/

theorem searchNode_empty (path : List Char) :
    (searchNode TrieNode.empty path).elim [] TrieNode.collectAll = [] := by
  cases path with
  | nil =>
    simp only [searchNode, Option.elim]
    exact collectAll_empty
  | cons c rest => simp [searchNode, TrieNode.empty, findChild]

/-- After inserting a record at the end of a path, the subtree reached by
following that same path exists and collects exactly the new record together
with whatever the old subtree (if any) collected. -/
theorem searchNode_insertPath :
    ∀ (path : List Char) (n : TrieNode) (r : CharRec),
      ∃ m, searchNode (n.insertPath path r) path = some m ∧
        m.collectAll.Perm
          (r :: (searchNode n path).elim [] TrieNode.collectAll) := by
  intro path
  induction path with
  | nil =>
    intro n r
    obtain ⟨cs, recs⟩ := n
    refine ⟨.mk cs (recs ++ [r]), rfl, ?_⟩
    simp only [searchNode, Option.elim, collectAll_mk, List.append_assoc,
      List.singleton_append]
    exact List.perm_middle
  | cons c rest ih =>
    intro n r
    obtain ⟨cs, recs⟩ := n
    cases hf : findChild cs c with
    | some child =>
      obtain ⟨m, hm, hperm⟩ := ih child r
      refine ⟨m, ?_, ?_⟩
      · rw [TrieNode.insertPath, hf]
        rw [searchNode, findChild_updateChild hf]
        exact hm
      · rw [searchNode, hf]
        exact hperm
    | none =>
      obtain ⟨m, hm, hperm⟩ := ih TrieNode.empty r
      refine ⟨m, ?_, ?_⟩
      · rw [TrieNode.insertPath, hf]
        rw [searchNode, findChild_addChild hf]
        exact hm
      · rw [searchNode, hf]
        rw [searchNode_empty rest] at hperm
        exact hperm

theorem totalRecsChildren_updateChild {c : Char} {child : TrieNode} :
    ∀ {cs : List (Char × TrieNode)}, findChild cs c = some child →
      ∀ t : TrieNode,
        totalRecsChildren (updateChild cs c t) + totalRecs child =
          totalRecsChildren cs + totalRecs t := by
  intro cs
  induction cs with
  | nil => intro h; rw [findChild] at h; exact absurd h (by simp)
  | cons e es ih =>
    intro h t
    rw [findChild] at h
    by_cases hc : e.1 = c
    · rw [if_pos hc] at h
      obtain rfl : e.2 = child := by simpa using h
      rw [updateChild, if_pos hc, totalRecsChildren, totalRecsChildren]
      simp
      omega
    · rw [if_neg hc] at h
      rw [updateChild, if_neg hc, totalRecsChildren, totalRecsChildren]
      have := ih h t
      omega

theorem totalRecsChildren_addChild (c : Char) (t : TrieNode) :
    ∀ cs : List (Char × TrieNode),
      totalRecsChildren (addChild cs c t) = totalRecs t + totalRecsChildren cs := by
  intro cs
  induction cs with
  | nil => simp [addChild, totalRecsChildren]
  | cons e es ih =>
    rw [addChild]
    by_cases ho : childOrderLt c e.1
    · rw [if_pos ho, totalRecsChildren, totalRecsChildren]
    · rw [if_neg (by simp [ho]), totalRecsChildren, totalRecsChildren, ih]
      omega

theorem totalRecs_insertPath :
    ∀ (path : List Char) (n : TrieNode) (r : CharRec),
      totalRecs (n.insertPath path r) = totalRecs n + 1 := by
  intro path
  induction path with
  | nil =>
    intro n r
    obtain ⟨cs, recs⟩ := n
    rw [TrieNode.insertPath, totalRecs_mk, totalRecs_mk]
    simp
    omega
  | cons c rest ih =>
    intro n r
    obtain ⟨cs, recs⟩ := n
    cases hf : findChild cs c with
    | some child =>
      rw [TrieNode.insertPath, hf, totalRecs_mk, totalRecs_mk]
      have h1 := totalRecsChildren_updateChild hf (child.insertPath rest r)
      have h2 := ih child r
      omega
    | none =>
      rw [TrieNode.insertPath, hf, totalRecs_mk, totalRecs_mk]
      have h1 := totalRecsChildren_addChild c (TrieNode.empty.insertPath rest r) cs
      have h2 := ih TrieNode.empty r
      have h3 := totalRecs_empty
      omega

theorem totalRecs_insert (t : TrieNode) {code : String} (h : code ≠ "")
    (d : CharRec) : totalRecs (t.insert code d) = totalRecs t + 1 := by
  rw [TrieNode.insert, if_neg h]
  exact totalRecs_insertPath code.data t _

/-! ### The code-prefix invariant of reachable tries -/

theorem childrenInv_iff (q : List Char) :
    ∀ cs : List (Char × TrieNode),
      childrenInv q cs ↔ ∀ e ∈ cs, nodeInv (q ++ [e.1]) e.2
  | [] => by rw [childrenInv]; simp
  | e :: es => by
    rw [childrenInv]
    simp [childrenInv_iff q es]

theorem nodeInv_mk {q : List Char} {cs : List (Char × TrieNode)}
    {recs : List CharRec} :
    nodeInv q (.mk cs recs) ↔
      ((∀ r ∈ recs, r.code.data = q) ∧ childrenInv q cs) := by
  rw [nodeInv]

theorem nodeInv_empty (q : List Char) : nodeInv q TrieNode.empty := by
  rw [TrieNode.empty, nodeInv_mk, childrenInv]
  exact ⟨by simp, trivial⟩

theorem nodeInv_insertPath :
    ∀ (path : List Char) (n : TrieNode) (q : List Char) (r : CharRec),
      nodeInv q n → r.code.data = q ++ path → nodeInv q (n.insertPath path r) := by
  intro path
  induction path with
  | nil =>
    intro n q r hinv hcode
    obtain ⟨cs, recs⟩ := n
    rw [TrieNode.insertPath]
    rw [nodeInv_mk] at hinv ⊢
    refine ⟨?_, hinv.2⟩
    intro x hx
    rcases List.mem_append.mp hx with hx | hx
    · exact hinv.1 x hx
    · obtain rfl : x = r := List.mem_singleton.mp hx
      simpa using hcode
  | cons c rest ih =>
    intro n q r hinv hcode
    obtain ⟨cs, recs⟩ := n
    rw [nodeInv_mk] at hinv
    have hcode' : r.code.data = (q ++ [c]) ++ rest := by
      rw [hcode]; simp
    cases hf : findChild cs c with
    | some child =>
      rw [TrieNode.insertPath, hf, nodeInv_mk]
      refine ⟨hinv.1, ?_⟩
      rw [childrenInv_iff]
      intro e' he'
      rcases mem_updateChild he' with h1 | h1
      · exact (childrenInv_iff q cs).mp hinv.2 e' h1
      · subst h1
        have hchild : nodeInv (q ++ [c]) child :=
          (childrenInv_iff q cs).mp hinv.2 (c, child) (findChild_mem hf)
        exact ih child (q ++ [c]) r hchild hcode'
    | none =>
      rw [TrieNode.insertPath, hf, nodeInv_mk]
      refine ⟨hinv.1, ?_⟩
      rw [childrenInv_iff]
      intro e' he'
      rcases mem_addChild he' with h1 | h1
      · exact (childrenInv_iff q cs).mp hinv.2 e' h1
      · subst h1
        exact ih TrieNode.empty (q ++ [c]) r (nodeInv_empty _) hcode'

theorem collectAll_nodeInv :
    ∀ n : TrieNode, ∀ q : List Char, nodeInv q n →
      ∀ r ∈ n.collectAll, q <+: r.code.data := by
  intro n
  induction n using TrieNode.inductionOn with
  | h cs recs ihs =>
    intro q hinv r hr
    rw [nodeInv_mk] at hinv
    rw [collectAll_mk] at hr
    rcases List.mem_append.mp hr with hr | hr
    · rw [hinv.1 r hr]
    · obtain ⟨e, he, hre⟩ := (mem_collectChildren r cs).mp hr
      have hinve : nodeInv (q ++ [e.1]) e.2 :=
        (childrenInv_iff q cs).mp hinv.2 e he
      have := ihs e he (q ++ [e.1]) hinve r hre
      exact (List.prefix_append q [e.1]).trans this

theorem searchNode_nodeInv :
    ∀ (path : List Char) (n : TrieNode) (q : List Char) (m : TrieNode),
      nodeInv q n → searchNode n path = some m → nodeInv (q ++ path) m := by
  intro path
  induction path with
  | nil =>
    intro n q m hinv hs
    rw [searchNode] at hs
    obtain rfl : n = m := by simpa using hs
    simpa using hinv
  | cons c rest ih =>
    intro n q m hinv hs
    obtain ⟨cs, recs⟩ := n
    rw [searchNode] at hs
    cases hf : findChild cs c with
    | none => rw [hf] at hs; exact absurd hs (by simp)
    | some child =>
      rw [hf] at hs
      rw [nodeInv_mk] at hinv
      have hchild : nodeInv (q ++ [c]) child :=
        (childrenInv_iff q cs).mp hinv.2 (c, child) (findChild_mem hf)
      have := ih child (q ++ [c]) m hchild hs
      simpa [List.append_assoc] using this

theorem nodeInv_insert {t : TrieNode} (hinv : nodeInv [] t) (code : String)
    (d : CharRec) : nodeInv [] (t.insert code d) := by
  rw [TrieNode.insert]
  by_cases h : code = ""
  · rw [if_pos h]; exact hinv
  · rw [if_neg h]
    exact nodeInv_insertPath code.data t [] _ hinv (by simp)

theorem buildTrie_nodeInv (ops : List (String × CharRec)) :
    nodeInv [] (buildTrie ops) := by
  rw [buildTrie]
  have : ∀ (l : List (String × CharRec)) (t : TrieNode), nodeInv [] t →
      nodeInv [] (l.foldl (fun t op => t.insert op.1 op.2) t) := by
    intro l
    induction l with
    | nil => intro t h; exact h
    | cons op ops ih =>
      intro t h
      exact ih _ (nodeInv_insert h op.1 op.2)
  exact this ops TrieNode.empty (nodeInv_empty [])

/-! ### Comparator lemmas -/

theorem codeCmp_self : ∀ l : List Char, codeCmp l l = .eq := by
  intro l
  induction l with
  | nil => rfl
  | cons a as ih => simp [codeCmp, ih]

theorem codeCmp_gt_iff :
    ∀ a b : List Char, codeCmp a b = .gt ↔ codeCmp b a = .lt := by
  intro a
  induction a with
  | nil =>
    intro b
    cases b <;> simp [codeCmp]
  | cons x xs ih =>
    intro b
    cases b with
    | nil => simp [codeCmp]
    | cons y ys =>
      simp only [codeCmp]
      rcases Nat.lt_trichotomy x.toNat y.toNat with h | h | h
      · simp [h, Nat.not_lt_of_lt h]
      · simp [h, Nat.lt_irrefl, ih ys]
      · simp [h, Nat.not_lt_of_lt h]

theorem codeCmp_ngt_trans :
    ∀ a b c : List Char,
      codeCmp a b ≠ .gt → codeCmp b c ≠ .gt → codeCmp a c ≠ .gt := by
  intro a
  induction a with
  | nil =>
    intro b c _ _
    cases c <;> simp [codeCmp]
  | cons x xs ih =>
    intro b c h1 h2
    cases b with
    | nil => rw [codeCmp] at h1; exact absurd rfl h1
    | cons y ys =>
      cases c with
      | nil => rw [codeCmp] at h2; exact absurd rfl h2
      | cons z zs =>
        rw [codeCmp] at h1 h2 ⊢
        by_cases hyx : y.toNat < x.toNat
        · rw [if_neg (by omega), if_pos hyx] at h1
          exact absurd rfl h1
        · by_cases hzy : z.toNat < y.toNat
          · rw [if_neg (by omega), if_pos hzy] at h2
            exact absurd rfl h2
          · by_cases hxz : x.toNat < z.toNat
            · rw [if_pos hxz]
              simp
            · have ex : x.toNat = y.toNat := by omega
              have ey : y.toNat = z.toNat := by omega
              rw [if_neg hxz, if_neg (by omega)]
              rw [if_neg (by omega), if_neg (by omega)] at h1 h2
              exact ih ys zs h1 h2

theorem sortLe_iff {q : String} {a b : CharRec} :
    sortLe q a b = true ↔ searchCompare q a b ≠ .gt := by
  simp [sortLe]

theorem sortLe_total (q : String) (a b : CharRec) :
    sortLe q a b || sortLe q b a := by
  rw [Bool.or_eq_true, sortLe_iff, sortLe_iff]
  by_cases h : searchCompare q a b = .gt
  · right
    by_cases ha : a.code = q <;> by_cases hb : b.code = q
    · simp [searchCompare, ha, hb, codeCmp_self] at h
    · simp [searchCompare, ha, hb] at h
    · simp [searchCompare, ha, hb]
    · simp only [searchCompare, ha, hb] at h
      simp only [searchCompare, ha, hb]
      simp only [not_false_iff, and_true, and_false, false_and, if_false,
        ite_false] at h ⊢
      rw [codeCmp_gt_iff] at h
      simp [h]
  · left
    exact h

theorem sortLe_trans (q : String) (a b c : CharRec) :
    sortLe q a b → sortLe q b c → sortLe q a c := by
  rw [sortLe_iff, sortLe_iff, sortLe_iff]
  intro h1 h2
  by_cases ha : a.code = q
  · by_cases hc : c.code = q
    · simp [searchCompare, ha, hc, codeCmp_self]
    · simp [searchCompare, ha, hc]
  · have hb : ¬ b.code = q := by
      intro hbq
      exact h1 (by simp [searchCompare, ha, hbq])
    have hc : ¬ c.code = q := by
      intro hcq
      exact h2 (by simp [searchCompare, hb, hcq])
    simp only [searchCompare] at h1 h2 ⊢
    rw [if_neg (by simp [ha]), if_neg (by simp [hb])] at h1
    rw [if_neg (by simp [hb]), if_neg (by simp [hc])] at h2
    rw [if_neg (by simp [ha]), if_neg (by simp [hc])]
    exact codeCmp_ngt_trans _ _ _ h1 h2

/-! ### Column-detection lemmas -/

theorem isCode45_iff (s : String) : isCode45 s = true ↔ isCode45Spec s := by
  rw [isCode45, isCode45Spec]
  simp [List.all_eq_true]

theorem isCode45_false_iff (s : String) :
    isCode45 s = false ↔ ¬ isCode45Spec s := by
  rw [← isCode45_iff]
  cases isCode45 s <;> simp

theorem findCodeCol_eq_some :
    ∀ (cols : List String) (j0 j : Nat),
      findCodeCol cols j0 = some j ↔
        ∃ pre c post, cols = pre ++ c :: post ∧ j = j0 + pre.length ∧
          (∀ c' ∈ pre, isCode45 c' = false) ∧ isCode45 c = true := by
  intro cols
  induction cols with
  | nil =>
    intro j0 j
    rw [findCodeCol]
    simp
  | cons a as ih =>
    intro j0 j
    rw [findCodeCol]
    by_cases ha : isCode45 a = true
    · rw [if_pos ha]
      constructor
      · intro h
        obtain rfl : j0 = j := by simpa using h
        exact ⟨[], a, as, rfl, by simp, by simp, ha⟩
      · rintro ⟨pre, c, post, hsplit, hj, hpre, hc⟩
        cases pre with
        | nil =>
          simp only [List.nil_append, List.cons.injEq] at hsplit
          simp [hj, hsplit.1]
        | cons p ps =>
          simp only [List.cons_append, List.cons.injEq] at hsplit
          have := hpre a (by simp [hsplit.1])
          rw [ha] at this
          cases this
    · rw [if_neg ha]
      rw [ih (j0 + 1) j]
      have ha' : isCode45 a = false := by
        cases hab : isCode45 a
        · rfl
        · exact absurd hab ha
      constructor
      · rintro ⟨pre, c, post, hsplit, hj, hpre, hc⟩
        refine ⟨a :: pre, c, post, by simp [hsplit], by simp; omega, ?_, hc⟩
        intro c' hc'
        rcases List.mem_cons.mp hc' with rfl | hmem
        · exact ha'
        · exact hpre c' hmem
      · rintro ⟨pre, c, post, hsplit, hj, hpre, hc⟩
        cases pre with
        | nil =>
          simp only [List.nil_append, List.cons.injEq] at hsplit
          obtain ⟨rfl, rfl⟩ := hsplit
          rw [hc] at ha'
          cases ha'
        | cons p ps =>
          simp only [List.cons_append, List.cons.injEq] at hsplit
          refine ⟨ps, c, post, hsplit.2, by simp at hj; omega,
            fun c' hm => hpre c' (by simp [hm]), hc⟩

theorem detectLine_iff (line : String) (j : Nat) :
    detectLine line = some j ↔ detectLineSpec line j := by
  rw [detectLine, detectLineSpec]
  by_cases hlen : (jsSplit '|' line).length < 5
  · rw [if_pos hlen]
    constructor
    · intro h; exact absurd h (by simp)
    · rintro ⟨h5, -⟩; omega
  · rw [if_neg hlen]
    rw [findCodeCol_eq_some]
    have h5 : 5 ≤ (jsSplit '|' line).length := by omega
    constructor
    · rintro ⟨pre, c, post, hsplit, hj, hpre, hc⟩
      refine ⟨h5, pre, c, post, hsplit, by omega, ?_, (isCode45_iff c).mp hc⟩
      intro c' hm
      rw [← isCode45_false_iff]
      exact hpre c' hm
    · rintro ⟨-, pre, c, post, hsplit, hj, hpre, hc⟩
      refine ⟨pre, c, post, hsplit, by omega, ?_, (isCode45_iff c).mpr hc⟩
      intro c' hm
      rw [isCode45_false_iff]
      exact hpre c' hm

theorem detectIn_take :
    ∀ (k : Nat) (ls : List String), detectIn ls k = detectIn (ls.take k) k := by
  intro k
  induction k with
  | zero => intro ls; cases ls <;> rfl
  | succ k ih =>
    intro ls
    cases ls with
    | nil => rfl
    | cons l ls =>
      rw [List.take_succ_cons, detectIn, detectIn]
      cases hd : detectLine l with
      | some j => rfl
      | none => exact ih ls

theorem detectIn_eq_some :
    ∀ (k : Nat) (ls : List String) (j : Nat),
      detectIn ls k = some j ↔
        ∃ pre l post, ls.take k = pre ++ l :: post ∧
          (∀ l' ∈ pre, detectLine l' = none) ∧ detectLine l = some j := by
  intro k
  induction k with
  | zero =>
    intro ls j
    cases ls <;> simp [detectIn]
  | succ k ih =>
    intro ls j
    cases ls with
    | nil => simp [detectIn]
    | cons l ls =>
      rw [detectIn, List.take_succ_cons]
      cases hd : detectLine l with
      | some j' =>
        simp only
        constructor
        · intro h
          obtain rfl : j' = j := by simpa using h
          exact ⟨[], l, ls.take k, rfl, by simp, hd⟩
        · rintro ⟨pre, l', post, hsplit, hpre, hl'⟩
          cases pre with
          | nil =>
            simp only [List.nil_append, List.cons.injEq] at hsplit
            obtain ⟨rfl, rfl⟩ := hsplit
            rw [hd] at hl'
            exact hl'
          | cons p ps =>
            simp only [List.cons_append, List.cons.injEq] at hsplit
            have := hpre l (by simp [hsplit.1])
            rw [hd] at this
            cases this
      | none =>
        simp only
        rw [ih ls j]
        constructor
        · rintro ⟨pre, l', post, hsplit, hpre, hl'⟩
          refine ⟨l :: pre, l', post, by simp [hsplit], ?_, hl'⟩
          intro x hx
          rcases List.mem_cons.mp hx with rfl | hm
          · exact hd
          · exact hpre x hm
        · rintro ⟨pre, l', post, hsplit, hpre, hl'⟩
          cases pre with
          | nil =>
            simp only [List.nil_append, List.cons.injEq] at hsplit
            obtain ⟨rfl, rfl⟩ := hsplit
            rw [hd] at hl'
            exact absurd hl' (by simp)
          | cons p ps =>
            simp only [List.cons_append, List.cons.injEq] at hsplit
            exact ⟨ps, l', post, hsplit.2,
              fun x hm => hpre x (by simp [hm]), hl'⟩

/-! ### Validator and ingestion lemmas -/

theorem rowRecord_code_ne {ci : Nat} {line : String} {r : CharRec}
    (h : rowRecord ci line = some r) : r.code ≠ "" := by
  simp only [rowRecord] at h
  split at h
  · exact absurd h (by simp)
  · split at h
    · split at h
      · rename_i hcond
        obtain rfl : _ = r := Option.some.inj h
        exact hcond.2.1
      · exact absurd h (by simp)
    · exact absurd h (by simp)

theorem foldl_ingest_none {ci : Nat} :
    ∀ (ls : List String) (acc : TrieNode × Nat),
      (∀ line ∈ ls, rowRecord ci line = none) →
      ls.foldl (ingestStep ci) acc = acc := by
  intro ls
  induction ls with
  | nil => intro acc _; rfl
  | cons l ls ih =>
    intro acc hall
    rw [List.foldl_cons]
    have h1 : ingestStep ci acc l = acc := by
      rw [ingestStep, hall l (List.mem_cons_self l ls)]
    rw [h1]
    exact ih acc (fun l' hm => hall l' (List.mem_cons_of_mem _ hm))

theorem foldl_ingest_count {ci : Nat} :
    ∀ (ls : List String) (acc : TrieNode × Nat), acc.2 = totalRecs acc.1 →
      (ls.foldl (ingestStep ci) acc).2 =
        totalRecs (ls.foldl (ingestStep ci) acc).1 := by
  intro ls
  induction ls with
  | nil => intro acc h; exact h
  | cons l ls ih =>
    intro acc h
    rw [List.foldl_cons]
    apply ih
    cases hr : rowRecord ci l with
    | none =>
      rw [ingestStep, hr]
      exact h
    | some r =>
      rw [ingestStep, hr]
      have := totalRecs_insert acc.1 (rowRecord_code_ne hr) r
      simp only [this, h]

/-! ### The claims -/

/-- C1: For every index (with any contents), calling search with the empty
string as prefix returns an empty sequence.  The guard lives in the search
effect: an empty input publishes `[]` without ever querying the trie (the
raw `Trie.search` method is not reached). -/
theorem claim_C1 (t : TrieNode) : appSearchResults t "" = [] := rfl

/-- C2: In the result list presented to the consumer, a record whose code
equals the query exactly is ordered before every record whose code does
not, and among records of equal exact-match status the codes are in
ascending code-point order. -/
theorem claim_C2 (t : TrieNode) (q : String) :
    (appSearchResults t q).Pairwise (fun a b =>
      (b.code = q → a.code = q) ∧
      ((a.code = q ↔ b.code = q) → codeCmp a.code.data b.code.data ≠ .gt)) := by
  rw [appSearchResults]
  by_cases hq : q.length = 0
  · rw [if_pos hq]
    exact List.Pairwise.nil
  · rw [if_neg hq]
    have hsorted : (orderedMatches t q).Pairwise (fun a b => sortLe q a b = true) := by
      rw [orderedMatches]
      exact List.sorted_mergeSort (sortLe_trans q) (sortLe_total q) (t.search q)
    have hsub : ((orderedMatches t q).take 100).Pairwise
        (fun a b => sortLe q a b = true) :=
      hsorted.sublist (List.take_sublist 100 _)
    refine hsub.imp ?_
    intro a b hab
    rw [sortLe_iff] at hab
    by_cases ha : a.code = q <;> by_cases hb : b.code = q
    · refine ⟨fun _ => ha, fun _ => ?_⟩
      have : a.code.data = b.code.data := by rw [ha, hb]
      rw [this, codeCmp_self]
      simp
    · exact ⟨fun hbq => absurd hbq hb, fun hiff => absurd (hiff.mp ha) hb⟩
    · exact absurd (by simp [searchCompare, ha, hb]) hab
    · refine ⟨fun hbq => absurd hbq hb, fun _ => ?_⟩
      simpa [searchCompare, ha, hb] using hab

/-- C5: Inserting a record under a non-empty code and searching that code
returns the (code-stamped) record; inserting two records under the same code
and searching that exact code returns both, and identical duplicates are
preserved with multiplicity. -/
theorem claim_C5 (t : TrieNode) (c : String) (r1 r2 : CharRec) (h : c ≠ "") :
    ({ r1 with code := c } ∈ (t.insert c r1).search c)
    ∧ ({ r1 with code := c } ∈ ((t.insert c r1).insert c r2).search c)
    ∧ ({ r2 with code := c } ∈ ((t.insert c r1).insert c r2).search c)
    ∧ (r1 = r2 →
        2 ≤ (((t.insert c r1).insert c r2).search c).count { r1 with code := c }) := by
  have hins : ∀ (x : TrieNode) (d : CharRec),
      x.insert c d = x.insertPath c.data { d with code := c } := by
    intro x d
    rw [TrieNode.insert, if_neg h]
  obtain ⟨m1, hm1, hp1⟩ := searchNode_insertPath c.data t { r1 with code := c }
  obtain ⟨m2, hm2, hp2⟩ :=
    searchNode_insertPath c.data (t.insert c r1) { r2 with code := c }
  have hs1 : (t.insert c r1).search c = m1.collectAll := by
    rw [TrieNode.search, hins t r1, hm1]
  have hs2 : ((t.insert c r1).insert c r2).search c = m2.collectAll := by
    rw [TrieNode.search, hins (t.insert c r1) r2, hm2]
  have hp2' : m2.collectAll.Perm
      ({ r2 with code := c } :: m1.collectAll) := by
    have he : (searchNode (t.insert c r1) c.data).elim [] TrieNode.collectAll =
        m1.collectAll := by
      rw [hins t r1, hm1]
      rfl
    rw [he] at hp2
    exact hp2
  refine ⟨?_, ?_, ?_, ?_⟩
  · rw [hs1]
    exact hp1.mem_iff.mpr (List.mem_cons_self _ _)
  · rw [hs2]
    exact hp2'.mem_iff.mpr
      (List.mem_cons_of_mem _ (hp1.mem_iff.mpr (List.mem_cons_self _ _)))
  · rw [hs2]
    exact hp2'.mem_iff.mpr (List.mem_cons_self _ _)
  · intro hr
    subst hr
    rw [hs2]
    have hcount := (hp2'.trans (hp1.cons _)).count_eq { r1 with code := c }
    rw [hcount]
    simp [List.count_cons]

/-- C7: The consumer publishes the first 100 ordered results; when the
ordered match list has at most 100 entries it is published unchanged, and
when it has more than 100 exactly 100 are published. -/
theorem claim_C7 (t : TrieNode) (q : String) (h : q ≠ "") :
    appSearchResults t q = (orderedMatches t q).take 100
    ∧ ((orderedMatches t q).length ≤ 100 →
        appSearchResults t q = orderedMatches t q)
    ∧ (100 < (orderedMatches t q).length →
        (appSearchResults t q).length = 100) := by
  have hq : ¬ q.length = 0 := by
    intro h0
    apply h
    obtain ⟨data⟩ := q
    have hd : data.length = 0 := h0
    rw [List.length_eq_zero.mp hd]
  refine ⟨by rw [appSearchResults, if_neg hq], fun hl => ?_, fun hl => ?_⟩
  · rw [appSearchResults, if_neg hq]
    exact List.take_of_length_le hl
  · rw [appSearchResults, if_neg hq, List.length_take]
    omega

/-- C8: On a trie built only through insert calls, every record returned by
a search is stored under a code extending the queried code: insert stamps
the insertion code onto the stored record and files it at exactly that
path. -/
theorem claim_C8 (ops : List (String × CharRec)) (p : String) (hp : p ≠ "") :
    ∀ r, r ∈ (buildTrie ops).search p → p.data <+: r.code.data := by
  intro r hr
  rw [TrieNode.search] at hr
  cases hs : searchNode (buildTrie ops) p.data with
  | none =>
    rw [hs] at hr
    simp at hr
  | some m =>
    rw [hs] at hr
    have hinv : nodeInv p.data m := by
      have := searchNode_nodeInv p.data (buildTrie ops) [] m
        (buildTrie_nodeInv ops) hs
      simpa using this
    exact collectAll_nodeInv m p.data hinv r hr

/-- C9: After every successful ingestion the reported accepted count equals
the total number of records stored in the index: every accepted row performs
exactly one insert, and its code is non-empty, so the insert never takes the
empty-code no-op branch. -/
theorem claim_C9 (text : String) :
    match processCSV text with
    | .ready t n => n = totalRecs t
    | .failed _ => True := by
  rw [processCSV]
  cases hd : detectCodeIndex (jsSplit '\n' text) with
  | none => simp
  | some ci =>
    simp only
    exact foldl_ingest_count _ (TrieNode.empty, 0) (by simp [totalRecs_empty])

/-- C3: Column detection examines only the first min(50, total) lines,
skips lines with fewer than 5 columns, matches columns against an anchored
4-or-5-digit test, returns the first matching line/column pair, and on
failure ingestion aborts with the descriptive error and no index. -/
theorem claim_C3 (text : String) :
    (detectCodeIndex (jsSplit '\n' text) =
        detectCodeIndex ((jsSplit '\n' text).take 50))
    ∧ (∀ j, detectCodeIndex (jsSplit '\n' text) = some j ↔
        detectSpec (jsSplit '\n' text) j)
    ∧ (∀ line j, detectLine line = some j ↔ detectLineSpec line j)
    ∧ (∀ s, isCode45 s = true ↔ isCode45Spec s)
    ∧ (detectCodeIndex (jsSplit '\n' text) = none →
        processCSV text = .failed detectErrorMsg) := by
  refine ⟨?_, ?_, detectLine_iff, isCode45_iff, ?_⟩
  · rw [detectCodeIndex, detectCodeIndex]
    exact detectIn_take 50 _
  · intro j
    rw [detectCodeIndex, detectIn_eq_some, detectSpec]
    have hnone : ∀ l' : String,
        detectLine l' = none ↔ ∀ j', ¬ detectLineSpec l' j' := by
      intro l'
      constructor
      · intro hn j' hspec
        rw [← detectLine_iff] at hspec
        rw [hn] at hspec
        cases hspec
      · intro hall
        cases hd : detectLine l' with
        | none => rfl
        | some j' => exact absurd ((detectLine_iff l' j').mp hd) (hall j')
    constructor
    · rintro ⟨pre, l, post, hs, hpre, hl⟩
      exact ⟨pre, l, post, hs, fun l' hm => (hnone l').mp (hpre l' hm),
        (detectLine_iff l _).mp hl⟩
    · rintro ⟨pre, l, post, hs, hpre, hl⟩
      exact ⟨pre, l, post, hs, fun l' hm => (hnone l').mpr (hpre l' hm),
        (detectLine_iff l _).mpr hl⟩
  · intro hn
    simp [processCSV, hn]

/-- C4: A non-blank line is accepted exactly when the character column is
present, the code column is present and all digits (any length), the
definition column is present and the pinyin column is present; the
cantonese column is not consulted; a rejected line leaves the ingestion
state (index and accepted count) unchanged. -/
theorem claim_C4 (ci : Nat) (line : String) (h : jsTrim line ≠ "") :
    ((rowRecord ci line).isSome = true ↔ rowAcceptSpec ci line)
    ∧ (∀ (t : TrieNode) (n : Nat), rowRecord ci line = none →
        ingestStep ci (t, n) line = (t, n)) := by
  constructor
  · simp only [rowRecord, rowAcceptSpec]
    rw [if_neg h]
    cases hcd : (jsSplit '|' (jsTrim line))[ci]? with
    | none => simp [hcd]
    | some code =>
      cases h9 : (jsSplit '|' (jsTrim line))[9]? with
      | none => simp [h9]
      | some py =>
        simp only
        split_ifs with hcond
        · simp only [Option.isSome_some, true_iff]
          obtain ⟨h1, h2, h3, h4, h5⟩ := hcond
          refine ⟨h1, ⟨code, rfl, h2, ?_⟩, h4, ⟨py, rfl, h5⟩⟩
          intro ch hch
          rw [isAllDigits, List.all_eq_true] at h3
          exact h3 ch hch
        · constructor
          · intro hfalse
            simp at hfalse
          · rintro ⟨h1, ⟨cd, hcd', h2, h3⟩, h4, ⟨py', hpy', h5⟩⟩
            obtain rfl : code = cd := Option.some.inj hcd'
            obtain rfl : py = py' := Option.some.inj hpy'
            exfalso
            apply hcond
            refine ⟨h1, h2, ?_, h4, h5⟩
            rw [isAllDigits, List.all_eq_true]
            exact h3
  · intro t n hnone
    rw [ingestStep, hnone]

/-- C6: Whenever column detection succeeds the pipeline reaches Ready, even
when zero rows pass validation: a fresh (possibly empty) index and count are
published and the error is cleared; only detector failure is fatal. -/
theorem claim_C6 (text : String) (j : Nat)
    (h : detectCodeIndex (jsSplit '\n' text) = some j) :
    ∃ t n, processCSV text = .ready t n
      ∧ (∀ s : AppState, processCSVUpdate s text =
          { s with trie := some t, datasetSize := n, loading := false,
                   error := none, showUploader := false })
      ∧ ((∀ line ∈ jsSplit '\n' text, rowRecord j line = none) →
          t = TrieNode.empty ∧ n = 0) := by
  have hp : processCSV text = .ready
      ((jsSplit '\n' text).foldl (ingestStep j) (TrieNode.empty, 0)).1
      ((jsSplit '\n' text).foldl (ingestStep j) (TrieNode.empty, 0)).2 := by
    simp only [processCSV, h]
  refine ⟨_, _, hp, ?_, ?_⟩
  · intro s
    rw [processCSVUpdate, hp]
  · intro hall
    have hfold := foldl_ingest_none (jsSplit '\n' text) (TrieNode.empty, 0) hall
    rw [hfold]
    exact ⟨rfl, rfl⟩

/-- C10: A failed ingestion run leaves the previously published index and
accepted count untouched and updates only the error message, the loading
flag and the uploader flag. -/
theorem claim_C10 (s : AppState) (text msg : String)
    (h : processCSV text = .failed msg) :
    processCSVUpdate s text =
      { s with error := some msg, loading := false, showUploader := true }
    ∧ (processCSVUpdate s text).trie = s.trie
    ∧ (processCSVUpdate s text).datasetSize = s.datasetSize := by
  have h1 : processCSVUpdate s text =
      { s with error := some msg, loading := false, showUploader := true } := by
    rw [processCSVUpdate, h]
  exact ⟨h1, by rw [h1], by rw [h1]⟩

/-! ### Witnesses -/

/-- Witness for C4 on the spec's own example row, with the code column at
index 10. -/
theorem claim_C4_witness :
    jsTrim "本|bun2|root; origin|x|x|x|x|x|x|bun2|1022" ≠ ""
    ∧ ((rowRecord 10 "本|bun2|root; origin|x|x|x|x|x|x|bun2|1022").isSome = true ↔
        rowAcceptSpec 10 "本|bun2|root; origin|x|x|x|x|x|x|bun2|1022") :=
  ⟨by decide, (claim_C4 10 "本|bun2|root; origin|x|x|x|x|x|x|bun2|1022" (by decide)).1⟩

/-- Witness for C5: a concrete double insertion under code "12"; the search
on "12" contains the stamped record with multiplicity at least 2. -/
theorem claim_C5_witness :
    ("12" : String) ≠ ""
    ∧ ({ char := "字", defn := "d", cantonese := none, pinyin := "p",
          code := "12" } : CharRec) ∈
        (TrieNode.empty.insert "12"
          { char := "字", defn := "d", cantonese := none, pinyin := "p",
            code := "zz" }).search "12"
    ∧ 2 ≤ (((TrieNode.empty.insert "12"
          { char := "字", defn := "d", cantonese := none, pinyin := "p",
            code := "zz" }).insert "12"
          { char := "字", defn := "d", cantonese := none, pinyin := "p",
            code := "zz" }).search "12").count
        { char := "字", defn := "d", cantonese := none, pinyin := "p",
          code := "12" } := by
  refine ⟨by decide, ?_, ?_⟩
  · exact (claim_C5 TrieNode.empty "12"
      { char := "字", defn := "d", cantonese := none, pinyin := "p", code := "zz" }
      { char := "字", defn := "d", cantonese := none, pinyin := "p", code := "zz" }
      (by decide)).1
  · exact (claim_C5 TrieNode.empty "12"
      { char := "字", defn := "d", cantonese := none, pinyin := "p", code := "zz" }
      { char := "字", defn := "d", cantonese := none, pinyin := "p", code := "zz" }
      (by decide)).2.2.2 rfl

/-- Witness for C6: a one-line text whose fifth column is "1234"; detection
returns index 4 and ingestion reaches Ready with an empty index and count 0
(the single row lacks a pinyin column and is rejected). -/
theorem claim_C6_witness :
    detectCodeIndex (jsSplit '\n' "a|b|c|d|1234") = some 4
    ∧ processCSVUpdate ⟨none, 0, true, none, false⟩ "a|b|c|d|1234"
        = ⟨some TrieNode.empty, 0, false, none, false⟩ := by
  constructor
  · decide
  · obtain ⟨t, n, h1, h2, h3⟩ := claim_C6 "a|b|c|d|1234" 4 (by decide)
    obtain ⟨rfl, rfl⟩ : t = TrieNode.empty ∧ n = 0 := h3 (by decide)
    rw [h2 ⟨none, 0, true, none, false⟩]

/-- Witness for C7 on a concrete query against the empty index. -/
theorem claim_C7_witness :
    ("1" : String) ≠ ""
    ∧ appSearchResults TrieNode.empty "1" =
        (orderedMatches TrieNode.empty "1").take 100 :=
  ⟨by decide, (claim_C7 TrieNode.empty "1" (by decide)).1⟩

/-- Witness for C8: after building a trie by inserting under "12", the
record found by searching "1" carries a code extending "1". -/
theorem claim_C8_witness :
    ("1" : String).data <+:
      ({ char := "x", defn := "d", cantonese := none, pinyin := "p",
          code := "12" } : CharRec).code.data :=
  claim_C8
    [("12", { char := "x", defn := "d", cantonese := none, pinyin := "p",
              code := "zz" })]
    "1" (by decide)
    { char := "x", defn := "d", cantonese := none, pinyin := "p", code := "12" }
    (by decide)

/-- Witness for C10: processing the empty text fails detection and the
published index (and its size) survive unchanged. -/
theorem claim_C10_witness :
    processCSV "" = .failed detectErrorMsg
    ∧ processCSVUpdate ⟨some TrieNode.empty, 7, false, none, false⟩ ""
        = ⟨some TrieNode.empty, 7, false, some detectErrorMsg, true⟩ := by
  constructor
  · rfl
  · rw [(claim_C10 ⟨some TrieNode.empty, 7, false, none, false⟩ ""
      detectErrorMsg rfl).1]

end Unihan
